import Mathlib

/-!
Shallow embedding of the recipe-processing pipeline in `recipe_processor.py`
(class `RecipeProcessor`) together with proofs about the claims of the
specification.

Python strings are modelled as `List Char` (code-point sequences); Python
string comparison is the lexicographic order on code points, which is the
`LinearOrder (List Char)` order.  `str.strip`, `str.lower` and the regular
expressions of the source are modelled character by character on the ASCII
fragment that the program manipulates: Lean's `Char.isWhitespace` stands for
the regex class `\s` and `Char.toLower` for `str.lower`.  Python `dict`s
(which iterate in insertion order) are modelled as association lists.
-/

namespace RecipeProc

/-- Python strings, modelled as lists of characters. -/
abbrev Str := List Char

/-- Coercion from a Lean string literal into the character-list model. -/
def str (s : String) : Str := s.toList

/-- Does `pat` occur as a contiguous substring of the second argument?
Models Python's `in` on strings and a bare `re.search` of a literal word. -/
def containsSub (pat : Str) : Str → Bool
  | [] => pat.isEmpty
  | c :: t => pat.isPrefixOf (c :: t) || containsSub pat t

/-- The `food_categories` dict of `RecipeProcessor.__init__`, in its insertion
order (which is the iteration order of `categorize_ingredient`). -/
def food_categories : List (Str × List Str) :=
  [ (str "Produce",
      [str "onion", str "garlic", str "tomato", str "carrot", str "celery",
       str "pepper", str "lettuce", str "spinach", str "broccoli",
       str "mushroom", str "lemon", str "lime", str "apple", str "banana",
       str "potato", str "herbs"]),
    (str "Meat & Seafood",
      [str "chicken", str "beef", str "pork", str "fish", str "salmon",
       str "shrimp", str "turkey", str "bacon", str "ground beef",
       str "sausage", str "lamb"]),
    (str "Dairy & Eggs",
      [str "milk", str "cheese", str "butter", str "yogurt", str "cream",
       str "eggs", str "sour cream", str "mozzarella", str "parmesan",
       str "cheddar"]),
    (str "Pantry Staples",
      [str "flour", str "sugar", str "salt", str "pepper", str "oil",
       str "vinegar", str "pasta", str "rice", str "beans", str "spices",
       str "sauce", str "stock", str "broth"]),
    (str "Frozen",
      [str "frozen vegetables", str "frozen fruit", str "ice cream",
       str "frozen pizza"]),
    (str "Bakery",
      [str "bread", str "rolls", str "bagels", str "croissants",
       str "tortillas"]),
    (str "Condiments",
      [str "ketchup", str "mustard", str "mayo", str "hot sauce",
       str "soy sauce", str "worcestershire"]) ]

/-- The `self.units` vocabulary, in source order (the order matters: it is the
order of the regex alternation built by `extract_quantity_and_unit`). -/
def units : List Str :=
  [str "cup", str "cups", str "tablespoon", str "tablespoons", str "tbsp",
   str "teaspoon", str "teaspoons", str "tsp", str "ounce", str "ounces",
   str "oz", str "pound", str "pounds", str "lb", str "lbs", str "gram",
   str "grams", str "g", str "kilogram", str "kg", str "milliliter",
   str "ml", str "liter", str "liters", str "pint", str "quart",
   str "gallon", str "pinch", str "dash", str "handful", str "clove",
   str "cloves", str "piece", str "pieces", str "slice", str "slices"]

/-- The fixed category order used by `process_ingredients_list` when it builds
its result dict (line 115 of the source). -/
def categoryDisplayOrder : List Str :=
  [str "Produce", str "Meat & Seafood", str "Dairy & Eggs",
   str "Pantry Staples", str "Bakery", str "Condiments", str "Frozen",
   str "Other"]

/-- Python `str.strip()`: drop leading and trailing whitespace. -/
def stripList (l : Str) : Str :=
  ((l.dropWhile Char.isWhitespace).reverse.dropWhile Char.isWhitespace).reverse

/-- Replace every maximal run of whitespace by a single space character.
Models `re.sub(r'\s+', ' ', s)`. -/
def collapseWS : Str → Str
  | [] => []
  | [c] => if c.isWhitespace then [' '] else [c]
  | a :: b :: t =>
    if a.isWhitespace && b.isWhitespace then collapseWS (b :: t)
    else (if a.isWhitespace then ' ' else a) :: collapseWS (b :: t)

/-- `RecipeProcessor.clean_ingredient`: strip, collapse internal whitespace,
lower-case.  (The `cooking_words` list in the source body is dead code: it is
built and never used, so it does not appear in the model.) -/
def clean_ingredient (ingredient : Str) : Str :=
  (collapseWS (stripList ingredient)).map Char.toLower

/-- Inner double loop of `categorize_ingredient`: return the first category of
the lexicon one of whose keywords occurs in the (already lowered) string. -/
def firstCategory : List (Str × List Str) → Str → Option Str
  | [], _ => none
  | (cat, kws) :: rest, low =>
    if kws.any (fun k => containsSub k low) then some cat
    else firstCategory rest low

/-- `RecipeProcessor.categorize_ingredient`. -/
def categorize_ingredient (ingredient : Str) : Str :=
  (firstCategory food_categories (ingredient.map Char.toLower)).getD (str "Other")

/-- Insert into a strictly ascending list, keeping it strictly ascending
(equal elements collapse).  `sortedDedup` below uses it to denote Python's
`sorted(list(set(l)))`. -/
def insertSorted (a : Str) : List Str → List Str
  | [] => [a]
  | b :: t =>
    if a < b then a :: b :: t
    else if a = b then b :: t
    else b :: insertSorted a t

/-- Denotation of Python `sorted(list(set(l)))`: the strictly ascending
enumeration of the distinct elements of `l` (Python's `sorted` on the
arbitrary-order `list(set(l))` produces exactly this list). -/
def sortedDedup (l : List Str) : List Str := l.foldr insertSorted []

/-- Association lists standing for Python dicts mapping a category name to a
list of ingredient strings (`defaultdict(list)` and plain result dicts). -/
abbrev SL := List (Str × List Str)

/-- Dict lookup (first entry with the given key). -/
def lookupSL (c : Str) : SL → Option (List Str)
  | [] => none
  | (k, v) :: t => if c = k then some v else lookupSL c t

/-- The keys of a dict, in order. -/
def keysSL (sl : SL) : List Str := sl.map Prod.fst

/-- `merged[category].extend(items)` on a `defaultdict(list)`: append to the
entry of the key if present, otherwise create it at the end. -/
def extendEntry : SL → Str → List Str → SL
  | [], c, items => [(c, items)]
  | (k, v) :: t, c, items =>
    if k = c then (k, v ++ items) :: t
    else (k, v) :: extendEntry t c items

/-- Inner loop of `merge_shopping_lists`: pour one shopping list into the
accumulating `defaultdict`. -/
def insertAll (acc sl : SL) : SL :=
  sl.foldl (fun a p => extendEntry a p.1 p.2) acc

/-- `RecipeProcessor.process_ingredients_list`: clean every ingredient, keep
the ones of length `> 2` (the source guard `if cleaned and len(cleaned) > 2`),
group by category, then emit the categories in the fixed display order with
`sorted(list(set(items)))` values. -/
def process_ingredients_list (ingredients : List Str) : SL :=
  let categorized := ingredients.foldl
    (fun acc ingredient =>
      if !(clean_ingredient ingredient).isEmpty &&
          (clean_ingredient ingredient).length > 2 then
        extendEntry acc (categorize_ingredient (clean_ingredient ingredient))
          [clean_ingredient ingredient]
      else acc) []
  categoryDisplayOrder.filterMap fun cat =>
    (lookupSL cat categorized).map fun items => (cat, sortedDedup items)

/-- `RecipeProcessor.merge_shopping_lists` (the `*lists` variadic argument is
modelled as a list of shopping lists). -/
def merge_shopping_lists (lists : List SL) : SL :=
  (lists.foldl insertAll []).map fun p => (p.1, sortedDedup p.2)

/-- Sentence-terminating punctuation of the transcript splitter. -/
def isDelim (c : Char) : Bool := c = '.' || c = '!' || c = '?'

/-- Recursion core of the sentence splitter, structural on a fuel argument
so that it reduces inside the kernel.  Each recursive step consumes at least
the one delimiter character at the head of the `dropWhile` result, so a fuel
of `length + 1` never runs out. -/
def splitSentencesGo : Nat → Str → List Str
  | 0, _ => []
  | fuel + 1, l =>
    match l.dropWhile (fun c => !(isDelim c)) with
    | [] => [l.takeWhile (fun c => !(isDelim c))]
    | _ :: t =>
      l.takeWhile (fun c => !(isDelim c)) ::
        splitSentencesGo fuel (t.dropWhile isDelim)

/-- `re.split(r'[.!?]+', t)`: split on maximal runs of sentence-terminating
punctuation (with the empty leading/trailing pieces Python produces). -/
def splitSentences (l : Str) : List Str := splitSentencesGo (l.length + 1) l

/-- The `instruction_patterns` of `extract_cooking_instructions`.  Each regex
is `(w1|w2|...).*` tested with `re.search`, which succeeds exactly when one of
the words occurs anywhere in the string. -/
def instruction_patterns : List (List Str) :=
  [ [str "first", str "then", str "next", str "after", str "now",
     str "finally"],
    [str "heat", str "cook", str "add", str "mix", str "stir", str "pour",
     str "place", str "put", str "season", str "serve"],
    [str "preheat", str "boil", str "simmer", str "sauté", str "fry",
     str "bake", str "roast", str "grill"] ]

/-- Does one of the three pattern groups match the lower-cased sentence
anywhere (the `for pattern in instruction_patterns: if re.search(...)` loop,
which appends the sentence once and breaks at the first matching group)? -/
def matchesInstruction (s : Str) : Bool :=
  instruction_patterns.any fun grp =>
    grp.any fun w => containsSub w (s.map Char.toLower)

/-- The per-sentence test of `extract_cooking_instructions`: keep a stripped
sentence when it is longer than 10 characters and some pattern matches. -/
def sentenceQualifies (s : Str) : Bool :=
  decide (s.length > 10) && matchesInstruction s

/-- `RecipeProcessor.extract_cooking_instructions`: split into sentences,
strip each, collect the qualifying ones in order, return the first 10. -/
def extract_cooking_instructions (transcript : Str) : List Str :=
  ((splitSentences transcript).foldl
    (fun acc s =>
      if sentenceQualifies (stripList s) then acc ++ [stripList s] else acc)
    []).take 10

/-- Maximal `\d+`: the leading digit run and the remainder; `none` when the
input does not start with a digit. -/
def parseDigits (l : Str) : Option (Str × Str) :=
  let ds := l.takeWhile Char.isDigit
  if ds.isEmpty then none else some (ds, l.drop ds.length)

/-- Optional greedy `(?:\.\d+)?`: matched text and remainder. -/
def parseDecimalPart (l : Str) : Str × Str :=
  match l with
  | '.' :: rest =>
    let ds := rest.takeWhile Char.isDigit
    if ds.isEmpty then ([], l) else ('.' :: ds, rest.drop ds.length)
  | _ => ([], l)

/-- Optional greedy range part of the quantity: whitespace, a dash or a
slash, whitespace, digits, optional decimal part.  The matched text is part
of the captured quantity; the remainder follows. -/
def parseRangePart (l : Str) : Str × Str :=
  let ws1 := l.takeWhile Char.isWhitespace
  match l.drop ws1.length with
  | c :: r2 =>
    if c = '-' || c = '/' then
      let ws2 := r2.takeWhile Char.isWhitespace
      match parseDigits (r2.drop ws2.length) with
      | some (ds, r4) =>
        let (dec, r5) := parseDecimalPart r4
        (ws1 ++ c :: ws2 ++ ds ++ dec, r5)
      | none => ([], l)
    else ([], l)
  | [] => ([], l)

/-- The captured quantity group of both regexes: digits, optional decimal
part, optional range part, returned as the number text and the range text
separately, together with the remainder.  Committing greedily to the digits
and the decimal part is faithful: backing them off leaves the next pattern
standing on a digit or a dot, which no continuation of either regex can
match.  The range part is an optional group that Python does back out of
when the tail of the second regex fails, so the caller keeps it separate. -/
def parseQuantity (l : Str) : Option (Str × Str × Str) :=
  match parseDigits l with
  | none => none
  | some (ds, r1) =>
    let (dec, r2) := parseDecimalPart r1
    let (rng, r3) := parseRangePart r2
    some (ds ++ dec, rng, r3)

/-- A match of `(.+)` at the current position: one or more characters taken
greedily, where `.` does not match a newline. -/
def dotPlus (l : Str) : Option Str :=
  let x := l.takeWhile (fun c => !(c == '\n'))
  if x.isEmpty then none else some x

/-- Backtracking of a greedy whitespace run against `(.+)`: try `(.+)` after
`j` consumed characters for `j = m, m-1, ..., 0`; the first success wins,
exactly as the engine gives back the run one character at a time. -/
def dotBacktrack : Nat → Str → Option Str
  | 0, l => dotPlus l
  | j + 1, l =>
    match dotPlus (l.drop (j + 1)) with
    | some item => some item
    | none => dotBacktrack j l

/-- Like `dotBacktrack` but stopping at one consumed character, for `\s+`,
which must consume at least one. -/
def dotBacktrackPos : Nat → Str → Option Str
  | 0, _ => none
  | j + 1, l =>
    match dotPlus (l.drop (j + 1)) with
    | some item => some item
    | none => dotBacktrackPos j l

/-- A match of `\s+(.+)`: the whitespace run is taken greedily and backed
off down to a single character until the newline-excluding `(.+)`
succeeds. -/
def wsPlusDotPlus (l : Str) : Option Str :=
  dotBacktrackPos (l.takeWhile Char.isWhitespace).length l

/-- The tail `\s*(?:of\s+)?(.+)` of the first regex, in Python's
backtracking order: at the end of the greedy `\s*` run the optional `of\s+`
is tried first (with its own `\s+` backing off against `(.+)`), then `(.+)`
alone at the same position; if both fail, `\s*` backs off one whitespace
character at a time — at those positions `of` cannot match (they hold
whitespace), leaving `(.+)` alone. -/
def parseItem (l : Str) : Option Str :=
  let k := (l.takeWhile Char.isWhitespace).length
  match (match l.drop k with
         | 'o' :: 'f' :: r => wsPlusDotPlus r
         | _ => none) with
  | some item => some item
  | none =>
    match dotPlus (l.drop k) with
    | some item => some item
    | none => if k = 0 then none else dotBacktrack (k - 1) l

/-- The unit alternation `(cup|cups|...)` followed by the item tail.  Python
alternation is ordered: the first vocabulary word that is a prefix of the
remaining text and lets the rest of the regex succeed wins. -/
def matchUnitFrom : List Str → Str → Option (Str × Str)
  | [], _ => none
  | u :: us, l =>
    if u.isPrefixOf l then
      match parseItem (l.drop u.length) with
      | some item => some (u, item)
      | none => matchUnitFrom us l
    else matchUnitFrom us l

/-- `RecipeProcessor.extract_quantity_and_unit`: try the quantity-unit-item
regex, then the quantity-item regex, both against the lower-cased string;
fall through to `("", "", ingredient)` (the original string) otherwise.

For the first regex the quantity group can be committed greedily: after
backing off a matched range part the next character is whitespace followed
by a dash or a slash, which no unit word and no smaller `\s*` run can
absorb, so no unit match is ever recovered that way.  For the second regex
the optional range part must be given back when `\s+(.+)` fails after it:
the tail is then retried at the position before the range text (backing off
the decimal part or digits instead can never help, since `\s+` would stand
on a dot or a digit). -/
def extract_quantity_and_unit (ingredient : Str) : Str × Str × Str :=
  let low := ingredient.map Char.toLower
  match parseQuantity low with
  | some (num, rng, r3) =>
    match matchUnitFrom units (r3.dropWhile Char.isWhitespace) with
    | some (u, item) => (num ++ rng, u, item)
    | none =>
      match wsPlusDotPlus r3 with
      | some item => (num ++ rng, [], item)
      | none =>
        if rng.isEmpty then ([], [], ingredient)
        else
          match wsPlusDotPlus (rng ++ r3) with
          | some item => (num, [], item)
          | none => ([], [], ingredient)
  | none => ([], [], ingredient)

/-- One element of the `videos` list consumed by `generate_recipe_summary`;
the `Option` fields model keys that may be absent from the Python dict
(`video.get(key, "")`). -/
structure Video where
  title : Option Str
  video_id : Option Str
  channel_title : Option Str
  transcript : Option Str

/-- The `recipe_data` dict consumed by `generate_recipe_summary`. -/
structure RecipeData where
  dish_name : Option Str
  videos : List Video
  ingredients : List Str

/-- A `video_tutorials` entry of the summary. -/
structure Tutorial where
  title : Str
  video_id : Str
  channel : Str
  url : Str
deriving DecidableEq

/-- The summary dict built by `generate_recipe_summary`. -/
structure RecipeSummary where
  dish_name : Str
  total_videos : Nat
  categorized_ingredients : SL
  cooking_instructions : List Str
  video_tutorials : List Tutorial

/-- The tutorial record built for one video. -/
def mkTutorial (v : Video) : Tutorial :=
  { title := v.title.getD []
    video_id := v.video_id.getD []
    channel := v.channel_title.getD []
    url := str "https://www.youtube.com/watch?v=" ++ v.video_id.getD [] }

/-- Loop body of `generate_recipe_summary` over the videos: accumulate
extracted instructions and tutorial records for videos whose transcript is
present and non-empty. -/
def summaryStep (acc : List Str × List Tutorial) (v : Video) :
    List Str × List Tutorial :=
  let transcript := v.transcript.getD []
  if transcript.isEmpty then acc
  else (acc.1 ++ extract_cooking_instructions transcript,
        acc.2 ++ [mkTutorial v])

/-- Helper for the denotation of Python `list(set(...))`: drop the elements
already seen, keep the first occurrence of each value. -/
def eraseDupsKeepFirstAux (seen : List Str) : List Str → List Str
  | [] => []
  | a :: t =>
    if a ∈ seen then eraseDupsKeepFirstAux seen t
    else a :: eraseDupsKeepFirstAux (a :: seen) t

/-- Denotation of Python `list(set(l))`.  Python's set iteration order is
unspecified; the model keeps the first occurrence of each instruction, one
concrete enumeration of the set. -/
def eraseDupsKeepFirst (l : List Str) : List Str := eraseDupsKeepFirstAux [] l

/-- `RecipeProcessor.generate_recipe_summary` itself. -/
def generate_recipe_summary (rd : RecipeData) : RecipeSummary :=
  let acc := rd.videos.foldl summaryStep ([], [])
  { dish_name := rd.dish_name.getD (str "Unknown Dish")
    total_videos := rd.videos.length
    categorized_ingredients := process_ingredients_list rd.ingredients
    cooking_instructions := (eraseDupsKeepFirst acc.1).take 15
    video_tutorials := acc.2 }

/-- Items stored under a category, with the `defaultdict` default. -/
def itemsAt (c : Str) (sl : SL) : List Str := (lookupSL c sl).getD []

/-- Content equality of two shopping lists: the same categories, each mapped
to the same item sequence (dict insertion order disregarded, exactly what
`==` on Python dicts compares). -/
def contentEq (X Y : SL) : Prop := ∀ c, lookupSL c X = lookupSL c Y

/-- Modelled from the claim of C4: a sentence would qualify via the
sequencing words only when one of them occurs at the START of the lower-cased
sentence; action and cooking-method verbs qualify it anywhere. -/
def qualifiesClaimC4 (s : Str) : Bool :=
  decide (s.length > 10) &&
    (((instruction_patterns.getD 0 []).any fun w =>
        w.isPrefixOf (s.map Char.toLower)) ||
     ((instruction_patterns.getD 1 []).any fun w =>
        containsSub w (s.map Char.toLower)) ||
     ((instruction_patterns.getD 2 []).any fun w =>
        containsSub w (s.map Char.toLower)))

/-- The amended qualification rule: each of the three pattern groups matches
anywhere in the lower-cased sentence (this is what `re.search` does). -/
def qualifiesAmended (s : Str) : Bool :=
  decide (s.length > 10) &&
    (((instruction_patterns.getD 0 []).any fun w =>
        containsSub w (s.map Char.toLower)) ||
     ((instruction_patterns.getD 1 []).any fun w =>
        containsSub w (s.map Char.toLower)) ||
     ((instruction_patterns.getD 2 []).any fun w =>
        containsSub w (s.map Char.toLower)))

/-- No two adjacent whitespace characters: the formal reading of the
invariant that no internal whitespace run is longer than one character. -/
def noDoubleWS : Str → Bool
  | [] => true
  | [_] => true
  | a :: b :: t => !(a.isWhitespace && b.isWhitespace) && noDoubleWS (b :: t)

/-- Concrete transcript with twelve qualifying sentences, used to instantiate
the extraction-bound theorem. -/
def sampleTranscript : Str :=
  str "add the salt now. add the salt now. add the salt now. add the salt now. add the salt now. add the salt now. add the salt now. add the salt now. add the salt now. add the salt now. add the salt now. add the salt now. "

/-- Concrete shopping lists used to instantiate the merge theorems. -/
def sampleListA : SL :=
  [(str "Produce", [str "onion", str "tomato"]),
   (str "Bakery", [str "bread"])]

/-- Second concrete shopping list for the merge theorems. -/
def sampleListB : SL :=
  [(str "Produce", [str "garlic", str "onion"]),
   (str "Frozen", [str "ice cream"])]

/-- Third concrete shopping list for the merge theorems. -/
def sampleListC : SL :=
  [(str "Bakery", [str "bagels", str "bread"])]

/-! Characterizations of the string-search helpers. -/

theorem prefixChar (p : Str) : ∀ l, p.isPrefixOf l = true ↔ ∃ t, l = p ++ t := by
  induction p with
  | nil => intro l; simp [List.isPrefixOf]
  | cons a p ih =>
    intro l
    cases l with
    | nil => simp [List.isPrefixOf]
    | cons b t =>
      simp only [List.isPrefixOf, Bool.and_eq_true, beq_iff_eq, ih,
        List.cons_append, List.cons.injEq]
      constructor
      · rintro ⟨h1, r, h2⟩; exact ⟨r, h1.symm, h2⟩
      · rintro ⟨r, h1, h2⟩; exact ⟨h1.symm, r, h2⟩

theorem containsSub_iff (p : Str) :
    ∀ l, containsSub p l = true ↔ ∃ u v, l = u ++ p ++ v := by
  intro l
  induction l with
  | nil =>
    simp only [containsSub, List.isEmpty_iff]
    constructor
    · intro h; exact ⟨[], [], by simp [h]⟩
    · rintro ⟨u, v, h⟩
      rcases List.append_eq_nil.mp h.symm with ⟨h1, _⟩
      exact (List.append_eq_nil.mp h1).2
  | cons c t ih =>
    simp only [containsSub, Bool.or_eq_true, prefixChar, ih]
    constructor
    · rintro (⟨r, h⟩ | ⟨u, v, h⟩)
      · exact ⟨[], r, by simpa using h⟩
      · exact ⟨c :: u, v, by simp [h]⟩
    · rintro ⟨u, v, h⟩
      cases u with
      | nil => exact Or.inl ⟨v, by simpa using h⟩
      | cons c' u' =>
        simp only [List.cons_append, List.cons.injEq] at h
        exact Or.inr ⟨u', v, h.2⟩

theorem containsSub_map (p l : Str) (f : Char → Char)
    (h : containsSub p l = true) :
    containsSub (p.map f) (l.map f) = true := by
  rw [containsSub_iff] at h ⊢
  rcases h with ⟨u, v, rfl⟩
  exact ⟨u.map f, v.map f, by simp⟩

/-! Theory of `sortedDedup`: it produces the strictly ascending enumeration
of the distinct elements of its input, and such an enumeration is unique. -/

theorem mem_insertSorted (a x : Str) :
    ∀ l, x ∈ insertSorted a l ↔ x = a ∨ x ∈ l := by
  intro l
  induction l with
  | nil => simp [insertSorted]
  | cons b t ih =>
    simp only [insertSorted]
    split_ifs with h1 h2
    · simp [List.mem_cons]
    · subst h2
      simp only [List.mem_cons]
      tauto
    · simp only [List.mem_cons, ih]
      tauto

theorem pairwise_insertSorted (a : Str) :
    ∀ l, List.Pairwise (· < ·) l → List.Pairwise (· < ·) (insertSorted a l) := by
  intro l
  induction l with
  | nil => intro _; simp [insertSorted]
  | cons b t ih =>
    intro h
    rcases List.pairwise_cons.mp h with ⟨hb, ht⟩
    simp only [insertSorted]
    split_ifs with h1 h2
    · refine List.pairwise_cons.mpr ⟨?_, h⟩
      intro x hx
      rcases List.mem_cons.mp hx with rfl | hx
      · exact h1
      · exact lt_trans h1 (hb x hx)
    · exact h
    · have hba : b < a := lt_of_le_of_ne (not_lt.mp h1) (Ne.symm h2)
      refine List.pairwise_cons.mpr ⟨?_, ih ht⟩
      intro x hx
      rcases (mem_insertSorted a x t).mp hx with rfl | hx
      · exact hba
      · exact hb x hx

theorem mem_sortedDedup (x : Str) : ∀ l, x ∈ sortedDedup l ↔ x ∈ l := by
  intro l
  induction l with
  | nil => simp [sortedDedup]
  | cons a t ih =>
    show x ∈ insertSorted a (sortedDedup t) ↔ _
    rw [mem_insertSorted, ih]
    simp [List.mem_cons]

theorem pairwise_sortedDedup : ∀ l, List.Pairwise (· < ·) (sortedDedup l) := by
  intro l
  induction l with
  | nil => simp [sortedDedup]
  | cons a t ih => exact pairwise_insertSorted a _ ih

theorem nodup_sortedDedup (l : List Str) : (sortedDedup l).Nodup :=
  (pairwise_sortedDedup l).imp ne_of_lt

theorem strictSorted_eq_of_mem_iff :
    ∀ (l₁ l₂ : List Str), List.Pairwise (· < ·) l₁ → List.Pairwise (· < ·) l₂ →
      (∀ x, x ∈ l₁ ↔ x ∈ l₂) → l₁ = l₂ := by
  intro l₁
  induction l₁ with
  | nil =>
    intro l₂ _ _ hmem
    cases l₂ with
    | nil => rfl
    | cons b s => exact absurd ((hmem b).mpr (by simp)) (by simp)
  | cons a t ih =>
    intro l₂ h1 h2 hmem
    cases l₂ with
    | nil => exact absurd ((hmem a).mp (by simp)) (by simp)
    | cons b s =>
      rcases List.pairwise_cons.mp h1 with ⟨ha, ht⟩
      rcases List.pairwise_cons.mp h2 with ⟨hb, hs⟩
      have hab : a = b := by
        rcases List.mem_cons.mp ((hmem a).mp (by simp)) with h | h
        · exact h
        · have hba : b < a := hb a h
          rcases List.mem_cons.mp ((hmem b).mpr (by simp)) with h' | h'
          · exact h'.symm
          · exact absurd (lt_trans (ha b h') hba) (lt_irrefl a)
      subst hab
      have hts : t = s := by
        apply ih s ht hs
        intro x
        constructor
        · intro hx
          rcases List.mem_cons.mp ((hmem x).mp (List.mem_cons_of_mem a hx)) with rfl | h
          · exact absurd (ha x hx) (lt_irrefl x)
          · exact h
        · intro hx
          rcases List.mem_cons.mp ((hmem x).mpr (List.mem_cons_of_mem a hx)) with rfl | h
          · exact absurd (hb x hx) (lt_irrefl x)
          · exact h
      rw [hts]

theorem sortedDedup_congr (l₁ l₂ : List Str)
    (h : ∀ x, x ∈ l₁ ↔ x ∈ l₂) : sortedDedup l₁ = sortedDedup l₂ := by
  apply strictSorted_eq_of_mem_iff _ _ (pairwise_sortedDedup l₁) (pairwise_sortedDedup l₂)
  intro x
  rw [mem_sortedDedup, mem_sortedDedup]
  exact h x

theorem sortedDedup_eq_self (l : List Str) (h : List.Pairwise (· < ·) l) :
    sortedDedup l = l :=
  strictSorted_eq_of_mem_iff _ _ (pairwise_sortedDedup l) h (fun x => mem_sortedDedup x l)

theorem sortedDedup_ne_nil (l : List Str) (h : l ≠ []) : sortedDedup l ≠ [] := by
  cases l with
  | nil => exact absurd rfl h
  | cons a t =>
    intro he
    have : a ∈ sortedDedup (a :: t) := (mem_sortedDedup a _).mpr (by simp)
    rw [he] at this
    exact absurd this (List.not_mem_nil a)

/-! Theory of the association lists standing for Python dicts. -/

theorem keysSL_cons (k : Str) (v : List Str) (t : SL) :
    keysSL ((k, v) :: t) = k :: keysSL t := rfl

theorem keysSL_append (a b : SL) : keysSL (a ++ b) = keysSL a ++ keysSL b :=
  List.map_append _ a b

theorem lookupSL_extendEntry (c k : Str) (items : List Str) :
    ∀ acc, lookupSL c (extendEntry acc k items) =
      if c = k then some ((lookupSL c acc).getD [] ++ items)
      else lookupSL c acc := by
  intro acc
  induction acc with
  | nil =>
    simp only [extendEntry, lookupSL]
    split_ifs with h
    · simp
    · rfl
  | cons p t ih =>
    obtain ⟨k', v⟩ := p
    by_cases h1 : k' = k
    · subst h1
      simp only [extendEntry, if_pos rfl, lookupSL]
      by_cases h2 : c = k'
      · simp [h2]
      · simp [h2]
    · simp only [extendEntry, if_neg h1, lookupSL]
      by_cases h2 : c = k'
      · have h3 : ¬ c = k := fun hh => h1 (h2.symm.trans hh)
        simp [h2, h3, h1]
      · simp [h2, ih]

theorem keysSL_extendEntry (k : Str) (items : List Str) :
    ∀ acc, keysSL (extendEntry acc k items) =
      if k ∈ keysSL acc then keysSL acc else keysSL acc ++ [k] := by
  intro acc
  induction acc with
  | nil => simp [extendEntry, keysSL]
  | cons p t ih =>
    obtain ⟨k', v⟩ := p
    by_cases h1 : k' = k
    · subst h1
      simp [extendEntry, keysSL_cons, List.mem_cons]
    · simp only [extendEntry, if_neg h1, keysSL_cons, ih]
      by_cases h2 : k ∈ keysSL t
      · rw [if_pos h2, if_pos (List.mem_cons_of_mem k' h2)]
      · have h3 : k ∉ (k' :: keysSL t) := by
          intro hh
          rcases List.mem_cons.mp hh with hh | hh
          · exact h1 hh.symm
          · exact h2 hh
        rw [if_neg h2, if_neg h3, List.cons_append]

theorem mem_keysSL_extendEntry (c k : Str) (items : List Str) (acc : SL) :
    c ∈ keysSL (extendEntry acc k items) ↔ c ∈ keysSL acc ∨ c = k := by
  rw [keysSL_extendEntry]
  split_ifs with h
  · constructor
    · exact fun hh => Or.inl hh
    · rintro (hh | rfl)
      · exact hh
      · exact h
  · simp [List.mem_append]

theorem nodup_keysSL_extendEntry (k : Str) (items : List Str) (acc : SL)
    (h : (keysSL acc).Nodup) : (keysSL (extendEntry acc k items)).Nodup := by
  rw [keysSL_extendEntry]
  split_ifs with h1
  · exact h
  · simp [List.nodup_append, h, h1]

theorem lookupSL_eq_none (c : Str) :
    ∀ sl : SL, lookupSL c sl = none ↔ c ∉ keysSL sl := by
  intro sl
  induction sl with
  | nil => simp [lookupSL, keysSL]
  | cons p t ih =>
    obtain ⟨k, v⟩ := p
    simp only [lookupSL, keysSL_cons, List.mem_cons]
    split_ifs with h
    · simp [h]
    · rw [ih]
      simp [h]

theorem mem_keysSL_of_lookupSL (c : Str) {v : List Str} :
    ∀ sl : SL, lookupSL c sl = some v → c ∈ keysSL sl := by
  intro sl h
  by_contra hc
  rw [← lookupSL_eq_none] at hc
  rw [h] at hc
  exact Option.noConfusion hc

theorem lookupSL_mem (c : Str) (v : List Str) :
    ∀ sl : SL, lookupSL c sl = some v → (c, v) ∈ sl := by
  intro sl
  induction sl with
  | nil => intro h; exact Option.noConfusion h
  | cons p t ih =>
    obtain ⟨k, w⟩ := p
    simp only [lookupSL]
    split_ifs with h
    · intro hv
      subst h
      rw [Option.some.injEq] at hv
      subst hv
      exact List.mem_cons_self _ _
    · intro hv
      exact List.mem_cons_of_mem _ (ih hv)

theorem insertAll_cons (acc : SL) (k : Str) (v : List Str) (t : SL) :
    insertAll acc ((k, v) :: t) = insertAll (extendEntry acc k v) t := rfl

theorem lookupSL_insertAll_of_not_mem (c : Str) :
    ∀ (sl : SL) (acc : SL), c ∉ keysSL sl →
      lookupSL c (insertAll acc sl) = lookupSL c acc := by
  intro sl
  induction sl with
  | nil => intro acc _; rfl
  | cons p t ih =>
    obtain ⟨k, v⟩ := p
    intro acc h
    rw [keysSL_cons] at h
    have h1 : c ≠ k := fun hh => h (hh ▸ List.mem_cons_self _ _)
    have h2 : c ∉ keysSL t := fun hh => h (List.mem_cons_of_mem _ hh)
    rw [insertAll_cons, ih _ h2, lookupSL_extendEntry, if_neg h1]

theorem lookupSL_insertAll (c : Str) :
    ∀ (sl : SL) (acc : SL), (keysSL sl).Nodup →
      lookupSL c (insertAll acc sl) =
        match lookupSL c sl with
        | some v => some ((lookupSL c acc).getD [] ++ v)
        | none => lookupSL c acc := by
  intro sl
  induction sl with
  | nil => intro acc _; rfl
  | cons p t ih =>
    obtain ⟨k, v⟩ := p
    intro acc hnd
    rw [keysSL_cons] at hnd
    rcases List.nodup_cons.mp hnd with ⟨hk, hnd'⟩
    by_cases hc : c = k
    · subst hc
      rw [insertAll_cons, lookupSL_insertAll_of_not_mem c t _ hk,
        lookupSL_extendEntry, if_pos rfl]
      simp [lookupSL]
    · rw [insertAll_cons, ih _ hnd']
      cases hlt : lookupSL c t with
      | none => simp [lookupSL, hc, hlt, lookupSL_extendEntry]
      | some w => simp [lookupSL, hc, hlt, lookupSL_extendEntry]

theorem mem_keysSL_insertAll (c : Str) :
    ∀ (sl : SL) (acc : SL),
      c ∈ keysSL (insertAll acc sl) ↔ c ∈ keysSL acc ∨ c ∈ keysSL sl := by
  intro sl
  induction sl with
  | nil => intro acc; simp [insertAll, keysSL]
  | cons p t ih =>
    obtain ⟨k, v⟩ := p
    intro acc
    rw [insertAll_cons, ih, mem_keysSL_extendEntry, keysSL_cons, List.mem_cons]
    tauto

theorem nodup_keysSL_insertAll :
    ∀ (sl : SL) (acc : SL), (keysSL acc).Nodup →
      (keysSL (insertAll acc sl)).Nodup := by
  intro sl
  induction sl with
  | nil => intro acc h; exact h
  | cons p t ih =>
    obtain ⟨k, v⟩ := p
    intro acc h
    rw [insertAll_cons]
    exact ih _ (nodup_keysSL_extendEntry k v acc h)

theorem lookupSL_mapSorted (c : Str) :
    ∀ sl : SL, lookupSL c (sl.map fun p => (p.1, sortedDedup p.2)) =
      (lookupSL c sl).map sortedDedup := by
  intro sl
  induction sl with
  | nil => rfl
  | cons p t ih =>
    obtain ⟨k, v⟩ := p
    simp only [List.map_cons, lookupSL]
    split_ifs with h
    · rfl
    · exact ih

theorem keysSL_mapSorted (sl : SL) :
    keysSL (sl.map fun p => (p.1, sortedDedup p.2)) = keysSL sl := by
  simp [keysSL, List.map_map, Function.comp]

theorem extendEntry_of_not_mem (k : Str) (v : List Str) :
    ∀ acc : SL, k ∉ keysSL acc → extendEntry acc k v = acc ++ [(k, v)] := by
  intro acc
  induction acc with
  | nil => intro _; rfl
  | cons p t ih =>
    obtain ⟨k', w⟩ := p
    intro h
    rw [keysSL_cons] at h
    have h1 : k' ≠ k := fun hh => h (hh ▸ List.mem_cons_self _ _)
    have h2 : k ∉ keysSL t := fun hh => h (List.mem_cons_of_mem _ hh)
    simp only [extendEntry, if_neg h1, List.cons_append, ih h2]

theorem insertAll_eq_append :
    ∀ (sl : SL) (acc : SL), (keysSL sl).Nodup →
      (∀ c ∈ keysSL sl, c ∉ keysSL acc) → insertAll acc sl = acc ++ sl := by
  intro sl
  induction sl with
  | nil => intro acc _ _; simp [insertAll]
  | cons p t ih =>
    obtain ⟨k, v⟩ := p
    intro acc hnd hdisj
    rw [keysSL_cons] at hnd hdisj
    rcases List.nodup_cons.mp hnd with ⟨hk, hnd'⟩
    have hdisj2 : ∀ c ∈ keysSL t, c ∉ keysSL (acc ++ [(k, v)]) := by
      intro c hc
      rw [keysSL_append]
      intro hmem
      rcases List.mem_append.mp hmem with hmem | hmem
      · exact hdisj c (List.mem_cons_of_mem _ hc) hmem
      · have hck : c = k := by simpa [keysSL] using hmem
        exact hk (hck ▸ hc)
    rw [insertAll_cons,
      extendEntry_of_not_mem k v acc (hdisj k (List.mem_cons_self _ _)),
      ih _ hnd' hdisj2, List.append_assoc]
    rfl

/-! Characterization of binary merges. -/

theorem merge2_def (A B : SL) :
    merge_shopping_lists [A, B] =
      (insertAll (insertAll [] A) B).map fun p => (p.1, sortedDedup p.2) := rfl

theorem lookupSL_insertAll_nil (c : Str) (A : SL) (hA : (keysSL A).Nodup) :
    lookupSL c (insertAll [] A) = lookupSL c A := by
  rw [lookupSL_insertAll c A [] hA]
  cases h : lookupSL c A <;> simp [lookupSL]

theorem lookup_merge2 (A B : SL) (hA : (keysSL A).Nodup)
    (hB : (keysSL B).Nodup) (c : Str) :
    lookupSL c (merge_shopping_lists [A, B]) =
      if c ∈ keysSL A ∨ c ∈ keysSL B
      then some (sortedDedup (itemsAt c A ++ itemsAt c B))
      else none := by
  rw [merge2_def, lookupSL_mapSorted, lookupSL_insertAll c B _ hB]
  simp only [lookupSL_insertAll_nil c A hA]
  cases hB' : lookupSL c B with
  | some b =>
    have hcB : c ∈ keysSL B := mem_keysSL_of_lookupSL c B hB'
    rw [if_pos (Or.inr hcB)]
    simp [itemsAt, hB']
  | none =>
    have hcB : c ∉ keysSL B := (lookupSL_eq_none c B).mp hB'
    cases hA' : lookupSL c A with
    | some a =>
      rw [if_pos (Or.inl (mem_keysSL_of_lookupSL c A hA'))]
      simp [itemsAt, hA', hB']
    | none =>
      have hcA : c ∉ keysSL A := (lookupSL_eq_none c A).mp hA'
      rw [if_neg (by tauto)]
      simp

theorem keysSL_merge2 (A B : SL) (c : Str) :
    c ∈ keysSL (merge_shopping_lists [A, B]) ↔ c ∈ keysSL A ∨ c ∈ keysSL B := by
  rw [merge2_def, keysSL_mapSorted, mem_keysSL_insertAll, mem_keysSL_insertAll]
  simp [keysSL]

theorem nodup_keysSL_merge2 (A B : SL) :
    (keysSL (merge_shopping_lists [A, B])).Nodup := by
  rw [merge2_def, keysSL_mapSorted]
  exact nodup_keysSL_insertAll B _ (nodup_keysSL_insertAll A [] (by simp [keysSL]))

theorem itemsAt_of_not_mem (c : Str) (sl : SL) (h : c ∉ keysSL sl) :
    itemsAt c sl = [] := by
  unfold itemsAt
  rw [(lookupSL_eq_none c sl).mpr h]
  rfl

theorem itemsAt_merge2 (A B : SL) (hA : (keysSL A).Nodup)
    (hB : (keysSL B).Nodup) (c : Str) :
    itemsAt c (merge_shopping_lists [A, B]) =
      if c ∈ keysSL A ∨ c ∈ keysSL B
      then sortedDedup (itemsAt c A ++ itemsAt c B)
      else [] := by
  unfold itemsAt
  rw [lookup_merge2 A B hA hB c]
  split_ifs <;> rfl

theorem lookup_merge3_left (A B C : SL) (hA : (keysSL A).Nodup)
    (hB : (keysSL B).Nodup) (hC : (keysSL C).Nodup) (c : Str) :
    lookupSL c (merge_shopping_lists [merge_shopping_lists [A, B], C]) =
      if c ∈ keysSL A ∨ c ∈ keysSL B ∨ c ∈ keysSL C
      then some (sortedDedup (itemsAt c A ++ itemsAt c B ++ itemsAt c C))
      else none := by
  rw [lookup_merge2 _ C (nodup_keysSL_merge2 A B) hC c]
  have hcond : (c ∈ keysSL (merge_shopping_lists [A, B]) ∨ c ∈ keysSL C) ↔
      (c ∈ keysSL A ∨ c ∈ keysSL B ∨ c ∈ keysSL C) := by
    rw [keysSL_merge2]
    tauto
  rw [if_congr hcond rfl rfl, itemsAt_merge2 A B hA hB c]
  by_cases h : c ∈ keysSL A ∨ c ∈ keysSL B
  · have h3 : c ∈ keysSL A ∨ c ∈ keysSL B ∨ c ∈ keysSL C := by tauto
    simp only [if_pos h, if_pos h3]
    congr 1
    apply sortedDedup_congr
    intro x
    constructor
    · intro hx
      simp only [List.mem_append, mem_sortedDedup] at hx ⊢
      tauto
    · intro hx
      simp only [List.mem_append, mem_sortedDedup] at hx ⊢
      tauto
  · simp only [if_neg h]
    push_neg at h
    rw [itemsAt_of_not_mem c A h.1, itemsAt_of_not_mem c B h.2]
    by_cases hc : c ∈ keysSL C
    · have h3 : c ∈ keysSL A ∨ c ∈ keysSL B ∨ c ∈ keysSL C := by tauto
      simp only [if_pos h3]
      simp
    · have h3 : ¬ (c ∈ keysSL A ∨ c ∈ keysSL B ∨ c ∈ keysSL C) := by tauto
      simp only [if_neg h3]

theorem lookup_merge3_right (A B C : SL) (hA : (keysSL A).Nodup)
    (hB : (keysSL B).Nodup) (hC : (keysSL C).Nodup) (c : Str) :
    lookupSL c (merge_shopping_lists [A, merge_shopping_lists [B, C]]) =
      if c ∈ keysSL A ∨ c ∈ keysSL B ∨ c ∈ keysSL C
      then some (sortedDedup (itemsAt c A ++ itemsAt c B ++ itemsAt c C))
      else none := by
  rw [lookup_merge2 A _ hA (nodup_keysSL_merge2 B C) c]
  have hcond : (c ∈ keysSL A ∨ c ∈ keysSL (merge_shopping_lists [B, C])) ↔
      (c ∈ keysSL A ∨ c ∈ keysSL B ∨ c ∈ keysSL C) := by
    rw [keysSL_merge2]
  rw [if_congr hcond rfl rfl, itemsAt_merge2 B C hB hC c]
  by_cases h : c ∈ keysSL B ∨ c ∈ keysSL C
  · have h3 : c ∈ keysSL A ∨ c ∈ keysSL B ∨ c ∈ keysSL C := by tauto
    simp only [if_pos h, if_pos h3]
    congr 1
    apply sortedDedup_congr
    intro x
    constructor
    · intro hx
      simp only [List.mem_append, mem_sortedDedup] at hx ⊢
      tauto
    · intro hx
      simp only [List.mem_append, mem_sortedDedup] at hx ⊢
      tauto
  · simp only [if_neg h]
    push_neg at h
    rw [itemsAt_of_not_mem c B h.1, itemsAt_of_not_mem c C h.2]
    by_cases hc : c ∈ keysSL A
    · have h3 : c ∈ keysSL A ∨ c ∈ keysSL B ∨ c ∈ keysSL C := by tauto
      simp only [if_pos h3]
      simp
    · have h3 : ¬ (c ∈ keysSL A ∨ c ∈ keysSL B ∨ c ∈ keysSL C) := by tauto
      simp only [if_neg h3]

/-! Character-level facts about `Char.toLower` and whitespace. -/

theorem toNat_ofNat_valid (n : Nat) (h : Nat.isValidChar n) :
    (Char.ofNat n).toNat = n := by
  simp only [Char.ofNat, dif_pos h, Char.ofNatAux, Char.toNat, UInt32.toNat]
  simp

theorem charEq_iff_toNat (d e : Char) : d = e ↔ d.toNat = e.toNat := by
  constructor
  · intro h; rw [h]
  · intro h
    apply Char.ext
    apply UInt32.ext
    exact h

theorem isWhitespace_iff_toNat (d : Char) :
    d.isWhitespace = true ↔
      (d.toNat = 32 ∨ d.toNat = 9 ∨ d.toNat = 13 ∨ d.toNat = 10) := by
  simp only [Char.isWhitespace, Bool.or_eq_true, decide_eq_true_eq]
  rw [charEq_iff_toNat d ' ', charEq_iff_toNat d '\t', charEq_iff_toNat d '\x0d',
    charEq_iff_toNat d '\n']
  have h1 : (' ' : Char).toNat = 32 := rfl
  have h2 : ('\t' : Char).toNat = 9 := rfl
  have h3 : ('\x0d' : Char).toNat = 13 := rfl
  have h4 : ('\n' : Char).toNat = 10 := rfl
  rw [h1, h2, h3, h4]
  tauto

theorem toLower_eq (c : Char) :
    Char.toLower c =
      if c.toNat ≥ 65 ∧ c.toNat ≤ 90 then Char.ofNat (c.toNat + 32) else c := rfl

theorem isWS_toLower (c : Char) :
    (Char.toLower c).isWhitespace = c.isWhitespace := by
  rw [toLower_eq]
  by_cases h : c.toNat ≥ 65 ∧ c.toNat ≤ 90
  · rw [if_pos h]
    have ht := toNat_ofNat_valid (c.toNat + 32) (Or.inl (by omega))
    have hc : c.isWhitespace = false := by
      by_contra hh
      rw [Bool.not_eq_false] at hh
      rcases (isWhitespace_iff_toNat c).mp hh with h' | h' | h' | h' <;> omega
    have hl : (Char.ofNat (c.toNat + 32)).isWhitespace = false := by
      by_contra hh
      rw [Bool.not_eq_false] at hh
      rcases (isWhitespace_iff_toNat _).mp hh with h' | h' | h' | h' <;> omega
    rw [hc, hl]
  · rw [if_neg h]

theorem toLower_toLower (c : Char) :
    Char.toLower (Char.toLower c) = Char.toLower c := by
  by_cases h : c.toNat ≥ 65 ∧ c.toNat ≤ 90
  · rw [toLower_eq c, if_pos h]
    have ht := toNat_ofNat_valid (c.toNat + 32) (Or.inl (by omega))
    rw [toLower_eq (Char.ofNat (c.toNat + 32)), if_neg (by omega)]
  · rw [toLower_eq c, if_neg h, toLower_eq c, if_neg h]

theorem map_toLower_idem (l : Str) :
    (l.map Char.toLower).map Char.toLower = l.map Char.toLower := by
  induction l with
  | nil => rfl
  | cons a t ih => simp [toLower_toLower, ih]

/-! Facts about `collapseWS` and `stripList` establishing the
CleanedIngredient invariants. -/

theorem collapseWS_head (b : Char) (t : Str) :
    ∃ d r, collapseWS (b :: t) = d :: r ∧ d.isWhitespace = b.isWhitespace := by
  induction t generalizing b with
  | nil =>
    refine ⟨if b.isWhitespace then ' ' else b, [], ?_, ?_⟩
    · by_cases h : b.isWhitespace <;> simp [collapseWS, h]
    · by_cases h : b.isWhitespace <;> simp [h]
  | cons b2 t2 ih =>
    cases hab : (b.isWhitespace && b2.isWhitespace) with
    | true =>
      obtain ⟨d, r, hdr, hws⟩ := ih b2
      refine ⟨d, r, ?_, ?_⟩
      · simp only [collapseWS, hab, if_true]
        exact hdr
      · rw [Bool.and_eq_true] at hab
        rw [hws, hab.1, hab.2]
    | false =>
      refine ⟨if b.isWhitespace then ' ' else b, collapseWS (b2 :: t2), ?_, ?_⟩
      · simp [collapseWS, hab]
      · by_cases h : b.isWhitespace <;> simp [h]

theorem collapseWS_noDouble : ∀ l : Str, noDoubleWS (collapseWS l) = true := by
  intro l
  induction l using collapseWS.induct with
  | case1 => rfl
  | case2 c h => simp [collapseWS, h, noDoubleWS]
  | case3 c h =>
    simp only [collapseWS]
    rw [if_neg h]
    rfl
  | case4 a b t h ih =>
    simp only [collapseWS, h]
    exact ih
  | case5 a b t h ih =>
    obtain ⟨d, r, hdr, hws⟩ := collapseWS_head b t
    have hx : (if a.isWhitespace then ' ' else a).isWhitespace = a.isWhitespace := by
      by_cases ha : a.isWhitespace <;> simp [ha]
    rw [Bool.not_eq_true] at h
    rw [hdr] at ih
    simp only [collapseWS]
    rw [if_neg (by rw [h]; exact Bool.false_ne_true), hdr]
    simp only [noDoubleWS, hx, hws, h, ih]
    rfl

theorem collapseWS_getLast :
    ∀ (t : Str) (b d : Char), (b :: t).getLast? = some d →
      ∃ e, (collapseWS (b :: t)).getLast? = some e ∧
        e.isWhitespace = d.isWhitespace := by
  intro t
  induction t with
  | nil =>
    intro b d hd
    have hbd : b = d := by
      simpa using hd
    subst hbd
    refine ⟨if b.isWhitespace then ' ' else b, ?_, ?_⟩
    · by_cases h : b.isWhitespace <;> simp [collapseWS, h]
    · by_cases h : b.isWhitespace <;> simp [h]
  | cons b2 t2 ih =>
    intro b d hd
    rw [List.getLast?_cons_cons] at hd
    obtain ⟨e, he, hws⟩ := ih b2 d hd
    cases hab : (b.isWhitespace && b2.isWhitespace) with
    | true =>
      refine ⟨e, ?_, hws⟩
      simp only [collapseWS, hab, if_true]
      exact he
    | false =>
      obtain ⟨d2, r2, hdr, _⟩ := collapseWS_head b2 t2
      refine ⟨e, ?_, hws⟩
      have hstep : collapseWS (b :: b2 :: t2) =
          (if b.isWhitespace then ' ' else b) :: collapseWS (b2 :: t2) := by
        simp [collapseWS, hab]
      rw [hstep, hdr, List.getLast?_cons_cons, ← hdr]
      exact he

theorem head_dropWhile_false (p : Char → Bool) :
    ∀ (l : Str) (c : Char), (l.dropWhile p).head? = some c → p c = false := by
  intro l
  induction l with
  | nil => intro c h; exact Option.noConfusion h
  | cons a t ih =>
    intro c h
    by_cases ha : p a
    · rw [List.dropWhile_cons_of_pos ha] at h
      exact ih c h
    · rw [List.dropWhile_cons_of_neg ha] at h
      have : a = c := by simpa using h
      subst this
      exact Bool.not_eq_true _ ▸ (by simpa using ha)

theorem getLast_dropWhile (p : Char → Bool) (w : Str)
    (h : w.dropWhile p ≠ []) : (w.dropWhile p).getLast? = w.getLast? := by
  conv_rhs => rw [← List.takeWhile_append_dropWhile p w]
  rw [List.getLast?_append]
  cases hg : (w.dropWhile p).getLast? with
  | none => exact absurd (List.getLast?_eq_none_iff.mp hg) h
  | some x => rfl

theorem stripList_head (l : Str) (c : Char)
    (h : (stripList l).head? = some c) : c.isWhitespace = false := by
  unfold stripList at h
  rw [List.head?_reverse] at h
  have hne : (((l.dropWhile Char.isWhitespace).reverse).dropWhile Char.isWhitespace) ≠ [] := by
    intro he
    rw [he] at h
    exact Option.noConfusion h
  rw [getLast_dropWhile _ _ hne, List.getLast?_reverse] at h
  exact head_dropWhile_false _ _ c h

theorem stripList_last (l : Str) (c : Char)
    (h : (stripList l).getLast? = some c) : c.isWhitespace = false := by
  unfold stripList at h
  rw [List.getLast?_reverse] at h
  exact head_dropWhile_false _ _ c h

theorem head?_map_char (f : Char → Char) (l : Str) :
    (l.map f).head? = (l.head?).map f := by
  cases l <;> rfl

theorem getLast?_map_char (f : Char → Char) :
    ∀ l : Str, (l.map f).getLast? = (l.getLast?).map f := by
  intro l
  induction l with
  | nil => rfl
  | cons a t ih =>
    cases t with
    | nil => rfl
    | cons b t2 =>
      rw [List.map_cons, List.map_cons, List.getLast?_cons_cons,
        ← List.map_cons, ih, List.getLast?_cons_cons]

theorem noDoubleWS_map_toLower : ∀ l : Str,
    noDoubleWS (l.map Char.toLower) = noDoubleWS l := by
  intro l
  induction l using noDoubleWS.induct with
  | case1 => rfl
  | case2 _ => rfl
  | case3 a b t ih =>
    simp only [List.map_cons, noDoubleWS]
    rw [show Char.toLower b :: t.map Char.toLower = (b :: t).map Char.toLower from rfl,
      ih, isWS_toLower, isWS_toLower]

theorem head_collapse_strip (ing : Str) (c : Char)
    (h : (collapseWS (stripList ing)).head? = some c) :
    c.isWhitespace = false := by
  cases hs : stripList ing with
  | nil => rw [hs] at h; exact Option.noConfusion h
  | cons b t =>
    obtain ⟨d, r, hdr, hws⟩ := collapseWS_head b t
    rw [hs, hdr] at h
    have hdc : d = c := by simpa using h
    subst hdc
    have hb : b.isWhitespace = false := stripList_head ing b (by rw [hs]; rfl)
    rw [hws, hb]

theorem last_collapse_strip (ing : Str) (c : Char)
    (h : (collapseWS (stripList ing)).getLast? = some c) :
    c.isWhitespace = false := by
  cases hs : stripList ing with
  | nil => rw [hs] at h; exact Option.noConfusion h
  | cons b t =>
    cases hd : (b :: t).getLast? with
    | none => exact absurd (List.getLast?_eq_none_iff.mp hd) (by simp)
    | some d =>
      obtain ⟨e, he, hws⟩ := collapseWS_getLast t b d hd
      rw [hs, he] at h
      have hec : e = c := by simpa using h
      subst hec
      have hdws : d.isWhitespace = false := stripList_last ing d (by rw [hs]; exact hd)
      rw [hws, hdws]

/-! The accumulation loop of the instruction extractor is a filter. -/

theorem foldl_collect (p : Str → Bool) (f : Str → Str) :
    ∀ (l : List Str) (init : List Str),
      l.foldl (fun acc s => if p (f s) then acc ++ [f s] else acc) init =
        init ++ (l.map f).filter p := by
  intro l
  induction l with
  | nil => intro init; simp
  | cons a t ih =>
    intro init
    simp only [List.foldl_cons, List.map_cons, List.filter_cons]
    cases h : p (f a) <;> simp [h, ih, List.append_assoc]

theorem extract_eq_filter (t : Str) :
    extract_cooking_instructions t =
      (((splitSentences t).map stripList).filter sentenceQualifies).take 10 := by
  unfold extract_cooking_instructions
  rw [foldl_collect sentenceQualifies stripList (splitSentences t) [],
    List.nil_append]

/-! First-match behaviour of the category lexicon. -/

theorem firstCategory_mem :
    ∀ (L : List (Str × List Str)) (low cat : Str),
      firstCategory L low = some cat → cat ∈ L.map Prod.fst := by
  intro L
  induction L with
  | nil => intro low cat h; exact Option.noConfusion h
  | cons p rest ih =>
    obtain ⟨c0, kws⟩ := p
    intro low cat h
    simp only [firstCategory] at h
    split_ifs at h with hany
    · have : c0 = cat := by simpa using h
      subst this
      exact List.mem_cons_self _ _
    · exact List.mem_cons_of_mem _ (ih low cat h)

theorem firstCategory_spec :
    ∀ (pre : List (Str × List Str)) (cat : Str) (kws : List Str)
      (rest : List (Str × List Str)) (low : Str),
      (∀ p ∈ pre, ∀ k ∈ p.2, containsSub k low = false) →
      (∃ k ∈ kws, containsSub k low = true) →
      firstCategory (pre ++ (cat, kws) :: rest) low = some cat := by
  intro pre
  induction pre with
  | nil =>
    intro cat kws rest low _ hex
    simp only [List.nil_append, firstCategory]
    rw [if_pos (List.any_eq_true.mpr (by simpa using hex))]
  | cons p pre' ih =>
    obtain ⟨c0, k0⟩ := p
    intro cat kws rest low hmiss hex
    simp only [List.cons_append, firstCategory]
    rw [if_neg ?_]
    · exact ih cat kws rest low
        (fun q hq => hmiss q (List.mem_cons_of_mem _ hq)) hex
    · intro hany
      rcases List.any_eq_true.mp hany with ⟨k, hk, hck⟩
      have := hmiss (c0, k0) (List.mem_cons_self _ _) k hk
      rw [this] at hck
      exact Bool.noConfusion hck

theorem categorize_mem_order (s : Str) :
    categorize_ingredient s ∈ categoryDisplayOrder := by
  unfold categorize_ingredient
  cases hf : firstCategory food_categories (s.map Char.toLower) with
  | none =>
    show str "Other" ∈ categoryDisplayOrder
    decide
  | some cat =>
    have hmem := firstCategory_mem food_categories _ cat hf
    have hsub : ∀ c ∈ food_categories.map Prod.fst, c ∈ categoryDisplayOrder := by
      decide
    show cat ∈ categoryDisplayOrder
    exact hsub cat hmem

/-! Evaluation of `process_ingredients_list` on a single kept ingredient. -/

theorem filterMap_singleton_dict (cat : Str) (v : List Str) :
    ∀ order : List Str, order.Nodup → cat ∈ order →
      (order.filterMap fun c =>
        (lookupSL c [(cat, v)]).map fun items => (c, sortedDedup items)) =
        [(cat, sortedDedup v)] := by
  intro order
  induction order with
  | nil => intro _ hmem; cases hmem
  | cons c0 rest ih =>
    intro hnd hmem
    rcases List.nodup_cons.mp hnd with ⟨hc0, hnd'⟩
    by_cases he : c0 = cat
    · subst he
      have hhead : Option.map (fun items => ((c0 : Str), sortedDedup items))
          (lookupSL c0 [(c0, v)]) = some (c0, sortedDedup v) := by
        simp [lookupSL]
      have hrest : (rest.filterMap fun c =>
          (lookupSL c [(c0, v)]).map fun items => (c, sortedDedup items)) = [] := by
        rw [List.filterMap_eq_nil_iff]
        intro c hc
        have hne : ¬ c = c0 := fun hh => hc0 (hh ▸ hc)
        simp [lookupSL, hne]
      simp only [List.filterMap_cons, hhead, hrest]
    · simp only [List.filterMap_cons, lookupSL, if_neg he, Option.map_none]
      refine ih hnd' ?_
      rcases List.mem_cons.mp hmem with hh | hh
      · exact absurd hh.symm he
      · exact hh

/-! Non-empty values are preserved by the accumulation loops. -/

theorem extendEntry_values_ne (k : Str) (v : List Str) (hv : v ≠ []) :
    ∀ acc : SL, (∀ q ∈ acc, q.2 ≠ []) → ∀ q ∈ extendEntry acc k v, q.2 ≠ [] := by
  intro acc
  induction acc with
  | nil =>
    intro _ q hq
    have : q = (k, v) := by simpa [extendEntry] using hq
    subst this
    exact hv
  | cons p t ih =>
    obtain ⟨k', w⟩ := p
    intro hacc q hq
    simp only [extendEntry] at hq
    split_ifs at hq with h1
    · rcases List.mem_cons.mp hq with rfl | hq
      · intro hh
        rcases List.append_eq_nil.mp hh with ⟨_, h2⟩
        exact hv h2
      · exact hacc q (List.mem_cons_of_mem _ hq)
    · rcases List.mem_cons.mp hq with rfl | hq
      · exact hacc (k', w) (List.mem_cons_self _ _)
      · exact ih (fun r hr => hacc r (List.mem_cons_of_mem _ hr)) q hq

theorem insertAll_values_ne :
    ∀ (sl acc : SL), (∀ q ∈ acc, q.2 ≠ []) → (∀ q ∈ sl, q.2 ≠ []) →
      ∀ q ∈ insertAll acc sl, q.2 ≠ [] := by
  intro sl
  induction sl with
  | nil => intro acc hacc _ q hq; exact hacc q hq
  | cons p t ih =>
    obtain ⟨k, v⟩ := p
    intro acc hacc hsl q hq
    rw [insertAll_cons] at hq
    refine ih _ ?_ (fun r hr => hsl r (List.mem_cons_of_mem _ hr)) q hq
    exact extendEntry_values_ne k v (hsl (k, v) (List.mem_cons_self _ _)) acc hacc

theorem foldl_insertAll_values :
    ∀ (ls : List SL) (acc : SL), (∀ q ∈ acc, q.2 ≠ []) →
      (∀ sl ∈ ls, ∀ q ∈ sl, q.2 ≠ []) →
      ∀ q ∈ ls.foldl insertAll acc, q.2 ≠ [] := by
  intro ls
  induction ls with
  | nil => intro acc hacc _ q hq; exact hacc q hq
  | cons sl t ih =>
    intro acc hacc hls q hq
    simp only [List.foldl_cons] at hq
    refine ih _ ?_ (fun r hr => hls r (List.mem_cons_of_mem _ hr)) q hq
    exact insertAll_values_ne sl acc hacc (hls sl (List.mem_cons_self _ _))

theorem ingredFold_values :
    ∀ (ings : List Str) (acc : SL), (∀ q ∈ acc, q.2 ≠ []) →
      ∀ q ∈ ings.foldl (fun acc ingredient =>
        if !(clean_ingredient ingredient).isEmpty &&
            (clean_ingredient ingredient).length > 2 then
          extendEntry acc (categorize_ingredient (clean_ingredient ingredient))
            [clean_ingredient ingredient]
        else acc) acc, q.2 ≠ [] := by
  intro ings
  induction ings with
  | nil => intro acc hacc q hq; exact hacc q hq
  | cons a t ih =>
    intro acc hacc q hq
    simp only [List.foldl_cons] at hq
    refine ih _ ?_ q hq
    split_ifs with h
    · exact extendEntry_values_ne _ _ (by simp) acc hacc
    · exact hacc

/-! Deduplication used by the summary builder. -/

theorem eraseDupsKeepFirstAux_spec :
    ∀ (l : List Str) (seen : List Str),
      (eraseDupsKeepFirstAux seen l).Nodup ∧
        ∀ x ∈ eraseDupsKeepFirstAux seen l, x ∉ seen := by
  intro l
  induction l with
  | nil =>
    intro seen
    exact ⟨List.nodup_nil, by simp [eraseDupsKeepFirstAux]⟩
  | cons a t ih =>
    intro seen
    by_cases h : a ∈ seen
    · simp only [eraseDupsKeepFirstAux, if_pos h]
      exact ih seen
    · simp only [eraseDupsKeepFirstAux, if_neg h]
      obtain ⟨hnd, hmem⟩ := ih (a :: seen)
      refine ⟨?_, ?_⟩
      · rw [List.nodup_cons]
        exact ⟨fun hmem2 => hmem a hmem2 (List.mem_cons_self a seen), hnd⟩
      · intro x hx
        rcases List.mem_cons.mp hx with rfl | hx
        · exact h
        · exact fun hxs => hmem x hx (List.mem_cons_of_mem a hxs)

theorem nodup_eraseDupsKeepFirst (l : List Str) : (eraseDupsKeepFirst l).Nodup :=
  (eraseDupsKeepFirstAux_spec l []).1

theorem summary_tutorials_len :
    ∀ (vs : List Video) (acc : List Str × List Tutorial),
      (vs.foldl summaryStep acc).2.length =
        acc.2.length +
          (vs.filter fun v => !(v.transcript.getD []).isEmpty).length := by
  intro vs
  induction vs with
  | nil => intro acc; simp
  | cons v t ih =>
    intro acc
    simp only [List.foldl_cons, List.filter_cons]
    cases h : (v.transcript.getD []).isEmpty with
    | true =>
      rw [show summaryStep acc v = acc from by simp [summaryStep, h]]
      rw [ih]
      simp [h]
    | false =>
      rw [show summaryStep acc v =
        (acc.1 ++ extract_cooking_instructions (v.transcript.getD []),
          acc.2 ++ [mkTutorial v]) from by simp [summaryStep, h]]
      rw [ih]
      simp [h]
      omega

/-! The claims. -/

/-- C1, counterexample: on the input `2 cups chopped onions` the parser does
not return `("2","cups","chopped onions")`: the unit alternation lists `cup`
before `cups` and Python alternation is ordered, so `cup` matches first and
the residual `s` is absorbed into the item group. -/
theorem C1_counterexample :
    extract_quantity_and_unit (str "2 cups chopped onions") ≠
      (str "2", str "cups", str "chopped onions") := by
  decide

/-- C1 as amended: `2 cups chopped onions` parses to
`("2","cup","s chopped onions")` because the ordered alternation takes `cup`
first; `1/2 cup milk` and `a pinch of salt` behave exactly as the claim
states. -/
theorem C1_amended :
    extract_quantity_and_unit (str "2 cups chopped onions") =
      (str "2", str "cup", str "s chopped onions") ∧
    extract_quantity_and_unit (str "1/2 cup milk") =
      (str "1/2", str "cup", str "milk") ∧
    extract_quantity_and_unit (str "a pinch of salt") =
      (str "", str "", str "a pinch of salt") := by
  refine ⟨by decide, by decide, by decide⟩

/-- C2, counterexample: `ketchup frozen pizza` contains a Condiments keyword
(`ketchup`) and a Frozen keyword (`frozen pizza`) and no keyword of any other
category, yet the classifier returns `Frozen`, not `Condiments`: the lexicon
dict enumerates Frozen before Bakery and Condiments. -/
theorem C2_counterexample :
    (∃ k ∈ (lookupSL (str "Condiments") food_categories).getD [],
      containsSub k (str "ketchup frozen pizza") = true) ∧
    (∃ k ∈ (lookupSL (str "Frozen") food_categories).getD [],
      containsSub k (str "ketchup frozen pizza") = true) ∧
    categorize_ingredient (str "ketchup frozen pizza") = str "Frozen" ∧
    categorize_ingredient (str "ketchup frozen pizza") ≠ str "Condiments" := by
  refine ⟨by decide, by decide, by decide, by decide⟩

/-- C2 as amended: the classifier iterates the lexicon in its dict insertion
order `Produce, Meat & Seafood, Dairy & Eggs, Pantry Staples, Frozen, Bakery,
Condiments` (Frozen before Bakery and Condiments, unlike the display order
the claim assumed) and stops at the first keyword hit: whenever a keyword of
a category matches the lower-cased ingredient and no keyword of any earlier
category does, that category is returned. -/
theorem C2_amended :
    keysSL food_categories =
      [str "Produce", str "Meat & Seafood", str "Dairy & Eggs",
       str "Pantry Staples", str "Frozen", str "Bakery", str "Condiments"] ∧
    ∀ (s : Str) (pre : List (Str × List Str)) (cat : Str) (kws : List Str)
      (rest : List (Str × List Str)),
      food_categories = pre ++ (cat, kws) :: rest →
      (∀ p ∈ pre, ∀ k ∈ p.2, containsSub k (s.map Char.toLower) = false) →
      (∃ k ∈ kws, containsSub k (s.map Char.toLower) = true) →
      categorize_ingredient s = cat := by
  constructor
  · rfl
  · intro s pre cat kws rest hsplit hmiss hex
    unfold categorize_ingredient
    rw [hsplit, firstCategory_spec pre cat kws rest _ hmiss hex]
    rfl

/-- C2, witness: instantiating the amended first-hit rule on
`ketchup frozen pizza` at the Frozen entry of the lexicon. -/
theorem C2_witness :
    (∃ k ∈ [str "frozen vegetables", str "frozen fruit", str "ice cream",
        str "frozen pizza"],
      containsSub k ((str "ketchup frozen pizza").map Char.toLower) = true) ∧
    categorize_ingredient (str "ketchup frozen pizza") = str "Frozen" :=
  ⟨by decide,
   C2_amended.2 (str "ketchup frozen pizza") (food_categories.take 4)
     (str "Frozen")
     [str "frozen vegetables", str "frozen fruit", str "ice cream",
      str "frozen pizza"]
     (food_categories.drop 5) (by rfl) (by decide) (by decide)⟩

/-- C3, counterexample: `onion salmon` contains the substring `salmon` but is
classified `Produce`, not `Meat & Seafood`, because Produce is enumerated
first and `onion` hits there. -/
theorem C3_counterexample :
    containsSub (str "salmon") (str "onion salmon") = true ∧
    categorize_ingredient (str "onion salmon") ≠ str "Meat & Seafood" ∧
    categorize_ingredient (str "onion salmon") = str "Produce" := by
  refine ⟨by decide, by decide, by decide⟩

/-- C3 as amended: a string containing `salmon` whose lower-casing contains
no Produce keyword is classified `Meat & Seafood`; every string containing
`onion` is classified `Produce` (unconditionally, Produce being the first
category); `xyzzy plugh` is classified `Other`. -/
theorem C3_amended :
    (∀ s : Str, containsSub (str "salmon") s = true →
      (∀ k ∈ (lookupSL (str "Produce") food_categories).getD [],
        containsSub k (s.map Char.toLower) = false) →
      categorize_ingredient s = str "Meat & Seafood") ∧
    (∀ s : Str, containsSub (str "onion") s = true →
      categorize_ingredient s = str "Produce") ∧
    categorize_ingredient (str "xyzzy plugh") = str "Other" := by
  refine ⟨?_, ?_, by decide⟩
  · intro s hsal hnop
    have hmap := containsSub_map (str "salmon") s Char.toLower hsal
    rw [show (str "salmon").map Char.toLower = str "salmon" by decide] at hmap
    unfold categorize_ingredient
    rw [show food_categories =
        food_categories.take 1 ++
          (str "Meat & Seafood",
            [str "chicken", str "beef", str "pork", str "fish", str "salmon",
             str "shrimp", str "turkey", str "bacon", str "ground beef",
             str "sausage", str "lamb"]) :: food_categories.drop 2 from rfl]
    rw [firstCategory_spec _ _ _ _ _ ?_ ⟨str "salmon", by decide, hmap⟩]
    · rfl
    · intro p hp k hk
      have hp' : p = (str "Produce",
          [str "onion", str "garlic", str "tomato", str "carrot", str "celery",
           str "pepper", str "lettuce", str "spinach", str "broccoli",
           str "mushroom", str "lemon", str "lime", str "apple", str "banana",
           str "potato", str "herbs"]) := by
        simpa [food_categories] using hp
      subst hp'
      exact hnop k hk
  · intro s honion
    have hmap := containsSub_map (str "onion") s Char.toLower honion
    rw [show (str "onion").map Char.toLower = str "onion" by decide] at hmap
    unfold categorize_ingredient
    rw [show food_categories =
        [] ++
          (str "Produce",
            [str "onion", str "garlic", str "tomato", str "carrot", str "celery",
             str "pepper", str "lettuce", str "spinach", str "broccoli",
             str "mushroom", str "lemon", str "lime", str "apple", str "banana",
             str "potato", str "herbs"]) :: food_categories.drop 1 from rfl]
    rw [firstCategory_spec _ _ _ _ _ (by simp) ⟨str "onion", by decide, hmap⟩]
    rfl

/-- C3, witness: `salmon fillet` (no Produce keyword) is classified
`Meat & Seafood`, and `onion rings` is classified `Produce`. -/
theorem C3_witness :
    containsSub (str "salmon") (str "salmon fillet") = true ∧
    categorize_ingredient (str "salmon fillet") = str "Meat & Seafood" ∧
    categorize_ingredient (str "onion rings") = str "Produce" :=
  ⟨by decide, C3_amended.1 (str "salmon fillet") (by decide) (by decide),
   C3_amended.2.1 (str "onion rings") (by decide)⟩

/-- C4, counterexample: the sentence `we rest a while and then we go home`
(36 characters, no action or cooking-method verb, sequencing word `then` only
in the middle) is accepted by the code's per-sentence test, while under the
claim's reading (sequencing words only at the start) it would not qualify:
the code uses `re.search`, which matches anywhere. -/
theorem C4_counterexample :
    sentenceQualifies (str "we rest a while and then we go home") = true ∧
    qualifiesClaimC4 (str "we rest a while and then we go home") = false := by
  refine ⟨by decide, by decide⟩

/-- C4 as amended: all three pattern groups — sequencing words included —
qualify a sentence when one of their words appears anywhere in the
lower-cased sentence; one match suffices, and the extractor keeps exactly the
stripped sentences of length `> 10` passing this test, in order, capped at
10. -/
theorem C4_amended :
    (∀ s : Str, sentenceQualifies s = qualifiesAmended s) ∧
    (∀ t : Str, extract_cooking_instructions t =
      (((splitSentences t).map stripList).filter qualifiesAmended).take 10) := by
  have h1 : ∀ s : Str, sentenceQualifies s = qualifiesAmended s := by
    intro s
    simp only [sentenceQualifies, qualifiesAmended, matchesInstruction,
      instruction_patterns, List.any_cons, List.any_nil, List.getD_cons_zero,
      List.getD_cons_succ, Bool.or_false, Bool.or_assoc]
  refine ⟨h1, ?_⟩
  intro t
  rw [extract_eq_filter t]
  congr 1
  apply List.filter_congr
  intro x _
  exact h1 x

/-- C5: the extractor splits the transcript on runs of sentence punctuation,
strips each sentence, keeps exactly the qualifying ones (length `> 10` and
some pattern matches) in original order, and truncates the collected list to
its first 10 elements; with more than 10 qualifying sentences the result has
exactly 10. -/
theorem C5_extraction (t : Str) :
    extract_cooking_instructions t =
      (((splitSentences t).map stripList).filter sentenceQualifies).take 10 ∧
    ((((splitSentences t).map stripList).filter sentenceQualifies).length > 10 →
      (extract_cooking_instructions t).length = 10) := by
  refine ⟨extract_eq_filter t, ?_⟩
  intro h
  rw [extract_eq_filter t, List.length_take]
  exact Nat.min_eq_left (Nat.le_of_lt h)

set_option maxRecDepth 40000 in
/-- C5, witness: a transcript with 12 qualifying sentences yields exactly
10 instructions. -/
theorem C5_witness :
    (((splitSentences sampleTranscript).map stripList).filter
      sentenceQualifies).length > 10 ∧
    (extract_cooking_instructions sampleTranscript).length = 10 :=
  ⟨by decide, (C5_extraction sampleTranscript).2 (by decide)⟩

/-- C6: merging is commutative and associative in content: for shopping lists
(dicts, so with distinct category keys) `A`, `B`, `C`, the merges
`merge(A,B)` and `merge(B,A)` hold the same categories with the same item
sequences, and `merge(merge(A,B),C)` equals `merge(A,merge(B,C))` in
content — per category the value is the sorted set union of the inputs. -/
theorem C6_merge_comm_assoc (A B C : SL) (hA : (keysSL A).Nodup)
    (hB : (keysSL B).Nodup) (hC : (keysSL C).Nodup) :
    contentEq (merge_shopping_lists [A, B]) (merge_shopping_lists [B, A]) ∧
    contentEq (merge_shopping_lists [merge_shopping_lists [A, B], C])
      (merge_shopping_lists [A, merge_shopping_lists [B, C]]) := by
  constructor
  · intro c
    rw [lookup_merge2 A B hA hB c, lookup_merge2 B A hB hA c]
    by_cases h : c ∈ keysSL A ∨ c ∈ keysSL B
    · rw [if_pos h, if_pos (Or.symm h)]
      congr 1
      apply sortedDedup_congr
      intro x
      simp only [List.mem_append]
      tauto
    · rw [if_neg h, if_neg (fun hh => h (Or.symm hh))]
  · intro c
    rw [lookup_merge3_left A B C hA hB hC c, lookup_merge3_right A B C hA hB hC c]

/-- C6, witness: the merge laws instantiated on three concrete shopping
lists. -/
theorem C6_witness :
    ((keysSL sampleListA).Nodup ∧ (keysSL sampleListB).Nodup ∧
      (keysSL sampleListC).Nodup) ∧
    contentEq (merge_shopping_lists [sampleListA, sampleListB])
      (merge_shopping_lists [sampleListB, sampleListA]) ∧
    contentEq
      (merge_shopping_lists
        [merge_shopping_lists [sampleListA, sampleListB], sampleListC])
      (merge_shopping_lists
        [sampleListA, merge_shopping_lists [sampleListB, sampleListC]]) :=
  ⟨⟨by decide, by decide, by decide⟩,
   (C6_merge_comm_assoc sampleListA sampleListB sampleListC
     (by decide) (by decide) (by decide)).1,
   (C6_merge_comm_assoc sampleListA sampleListB sampleListC
     (by decide) (by decide) (by decide)).2⟩

/-- C7: every category present in the output of `process_ingredients_list`,
or of `merge_shopping_lists` on well-formed inputs (no empty item sequences,
as the ShoppingList type prescribes), maps to a strictly ascending,
duplicate-free, non-empty item sequence — empty categories are never
emitted. -/
theorem C7_invariant :
    (∀ ings : List Str, ∀ p ∈ process_ingredients_list ings,
      List.Pairwise (· < ·) p.2 ∧ p.2.Nodup ∧ p.2 ≠ []) ∧
    (∀ ls : List SL, (∀ sl ∈ ls, ∀ q ∈ sl, q.2 ≠ []) →
      ∀ p ∈ merge_shopping_lists ls,
        List.Pairwise (· < ·) p.2 ∧ p.2.Nodup ∧ p.2 ≠ []) := by
  constructor
  · intro ings p hp
    simp only [process_ingredients_list] at hp
    rw [List.mem_filterMap] at hp
    obtain ⟨cat, _, hf⟩ := hp
    obtain ⟨items, hitems, hp2⟩ := Option.map_eq_some'.mp hf
    rw [← hp2]
    refine ⟨pairwise_sortedDedup items, nodup_sortedDedup items,
      sortedDedup_ne_nil items ?_⟩
    exact ingredFold_values ings [] (by simp) (cat, items)
      (lookupSL_mem cat items _ hitems)
  · intro ls hls p hp
    unfold merge_shopping_lists at hp
    rw [List.mem_map] at hp
    obtain ⟨q, hq, rfl⟩ := hp
    refine ⟨pairwise_sortedDedup _, nodup_sortedDedup _,
      sortedDedup_ne_nil _ ?_⟩
    exact foldl_insertAll_values ls [] (by simp) hls q hq

/-- C7, witness: the invariant instantiated on a concrete processed batch and
a concrete merge. -/
theorem C7_witness :
    ((str "Produce", [str "onion"]) ∈
        process_ingredients_list [str "milk", str "onion"] ∧
      List.Pairwise (· < ·) [str "onion"] ∧
      ([str "onion"] : List Str).Nodup ∧ [str "onion"] ≠ ([] : List Str)) ∧
    ((∀ sl ∈ [sampleListA, sampleListB], ∀ q ∈ sl, q.2 ≠ []) ∧
      List.Pairwise (· < ·) [str "garlic", str "onion", str "tomato"] ∧
      ([str "garlic", str "onion", str "tomato"] : List Str).Nodup ∧
      [str "garlic", str "onion", str "tomato"] ≠ ([] : List Str)) :=
  ⟨⟨by decide,
    C7_invariant.1 [str "milk", str "onion"] (str "Produce", [str "onion"])
      (by decide)⟩,
   ⟨by decide,
    C7_invariant.2 [sampleListA, sampleListB] (by decide)
      (str "Produce", [str "garlic", str "onion", str "tomato"])
      (by decide)⟩⟩

/-- C8: the summary's `total_videos` counts every input video record —
including the ones without a usable transcript, which contribute no tutorial
entry, so `total_videos` can exceed the tutorial count — and the
`cooking_instructions` field, the deduplicated aggregation over all videos,
never has more than 15 entries (and holds no duplicates). -/
theorem C8_summary (rd : RecipeData) :
    (generate_recipe_summary rd).total_videos = rd.videos.length ∧
    (generate_recipe_summary rd).video_tutorials.length =
      (rd.videos.filter fun v => !(v.transcript.getD []).isEmpty).length ∧
    (generate_recipe_summary rd).cooking_instructions.length ≤ 15 ∧
    (generate_recipe_summary rd).cooking_instructions.Nodup := by
  refine ⟨rfl, ?_, ?_, ?_⟩
  · show (rd.videos.foldl summaryStep ([], [])).2.length = _
    rw [summary_tutorials_len rd.videos ([], [])]
    simp
  · show ((eraseDupsKeepFirst
      (rd.videos.foldl summaryStep ([], [])).1).take 15).length ≤ 15
    exact List.length_take_le 15 _
  · show ((eraseDupsKeepFirst
      (rd.videos.foldl summaryStep ([], [])).1).take 15).Nodup
    exact (List.take_sublist 15 _).nodup (nodup_eraseDupsKeepFirst _)

/-- C9: `clean_ingredient` always returns a lowercase string (a fixed point
of lower-casing) with no leading or trailing whitespace and no two adjacent
whitespace characters, on any input; and `process_ingredients_list` drops a
raw ingredient whose cleaned form has length at most 2 while keeping one
whose cleaned form has length at least 3. -/
theorem C9_clean :
    (∀ ing : Str,
      (clean_ingredient ing).map Char.toLower = clean_ingredient ing ∧
      (∀ c, (clean_ingredient ing).head? = some c → c.isWhitespace = false) ∧
      (∀ c, (clean_ingredient ing).getLast? = some c → c.isWhitespace = false) ∧
      noDoubleWS (clean_ingredient ing) = true) ∧
    (∀ ing : Str, (clean_ingredient ing).length ≤ 2 →
      process_ingredients_list [ing] = []) ∧
    (∀ ing : Str, (clean_ingredient ing).length > 2 →
      process_ingredients_list [ing] =
        [(categorize_ingredient (clean_ingredient ing),
          [clean_ingredient ing])]) := by
  refine ⟨?_, ?_, ?_⟩
  · intro ing
    refine ⟨map_toLower_idem _, ?_, ?_, ?_⟩
    · intro c hc
      unfold clean_ingredient at hc
      rw [head?_map_char] at hc
      cases hh : (collapseWS (stripList ing)).head? with
      | none => rw [hh] at hc; exact Option.noConfusion hc
      | some d =>
        rw [hh] at hc
        have hdc : Char.toLower d = c := by simpa using hc
        rw [← hdc, isWS_toLower]
        exact head_collapse_strip ing d hh
    · intro c hc
      unfold clean_ingredient at hc
      rw [getLast?_map_char] at hc
      cases hh : (collapseWS (stripList ing)).getLast? with
      | none => rw [hh] at hc; exact Option.noConfusion hc
      | some d =>
        rw [hh] at hc
        have hdc : Char.toLower d = c := by simpa using hc
        rw [← hdc, isWS_toLower]
        exact last_collapse_strip ing d hh
    · unfold clean_ingredient
      rw [noDoubleWS_map_toLower]
      exact collapseWS_noDouble _
  · intro ing h
    simp only [process_ingredients_list, List.foldl_cons, List.foldl_nil]
    split_ifs with hsplit
    · exfalso
      rw [Bool.and_eq_true] at hsplit
      have := of_decide_eq_true hsplit.2
      omega
    · rfl
  · intro ing h
    simp only [process_ingredients_list, List.foldl_cons, List.foldl_nil]
    split_ifs with hsplit
    · rw [show extendEntry [] (categorize_ingredient (clean_ingredient ing))
          [clean_ingredient ing] =
          [(categorize_ingredient (clean_ingredient ing),
            [clean_ingredient ing])] from rfl]
      rw [filterMap_singleton_dict _ _ categoryDisplayOrder (by decide)
        (categorize_mem_order _)]
      rfl
    · exfalso
      apply hsplit
      rw [Bool.and_eq_true]
      constructor
      · cases hcl : clean_ingredient ing with
        | nil => rw [hcl] at h; simp at h
        | cons a t => rfl
      · exact decide_eq_true h

/-- C9, witness: the normalizer and the length-2 boundary instantiated on
concrete ingredients. -/
theorem C9_witness :
    ((clean_ingredient (str "  a  B ")).head? = some 'a' ∧
      ('a').isWhitespace = false) ∧
    ((clean_ingredient (str "ab")).length ≤ 2 ∧
      process_ingredients_list [str "ab"] = []) ∧
    ((clean_ingredient (str "egg")).length > 2 ∧
      process_ingredients_list [str "egg"] =
        [(categorize_ingredient (clean_ingredient (str "egg")),
          [clean_ingredient (str "egg")])]) :=
  ⟨⟨by decide, (C9_clean.1 (str "  a  B ")).2.1 'a' (by decide)⟩,
   ⟨by decide, C9_clean.2.1 (str "ab") (by decide)⟩,
   ⟨by decide, C9_clean.2.2 (str "egg") (by decide)⟩⟩

/-- C10: merging is idempotent on well-formed shopping lists: if every
category of `A` holds a sorted duplicate-free item sequence, then the
one-argument merge returns `A` itself, and `merge(A, A)` equals `A` in
content. -/
theorem C10_merge_idem (A : SL) (hA : (keysSL A).Nodup)
    (hsorted : ∀ p ∈ A, List.Pairwise (· ≤ ·) p.2 ∧ p.2.Nodup) :
    merge_shopping_lists [A] = A ∧
    contentEq (merge_shopping_lists [A, A]) A := by
  have hlt : ∀ p ∈ A, List.Pairwise (· < ·) p.2 := by
    intro p hp
    obtain ⟨h1, h2⟩ := hsorted p hp
    exact (h1.and h2).imp fun h => lt_of_le_of_ne h.1 h.2
  constructor
  · show (insertAll [] A).map _ = A
    rw [insertAll_eq_append A [] hA (by intro c hc; simp [keysSL]),
      List.nil_append]
    have hfix : ∀ p ∈ A,
        (fun p : Str × List Str => (p.1, sortedDedup p.2)) p = p := by
      intro p hp
      simp [sortedDedup_eq_self p.2 (hlt p hp)]
    rw [List.map_congr_left hfix]
    exact List.map_id A
  · intro c
    rw [lookup_merge2 A A hA hA c]
    by_cases h : c ∈ keysSL A
    · rw [if_pos (Or.inl h)]
      cases hl : lookupSL c A with
      | none => exact absurd h ((lookupSL_eq_none c A).mp hl)
      | some v =>
        have hvlt := hlt (c, v) (lookupSL_mem c v A hl)
        have hit : itemsAt c A = v := by simp [itemsAt, hl]
        rw [hit]
        congr 1
        calc sortedDedup (v ++ v) = sortedDedup v :=
              sortedDedup_congr _ _ (by intro x; simp [List.mem_append])
          _ = v := sortedDedup_eq_self v hvlt
    · rw [if_neg (by tauto), (lookupSL_eq_none c A).mpr h]

/-- C10, witness: idempotence instantiated on a concrete well-formed
shopping list. -/
theorem C10_witness :
    ((keysSL sampleListA).Nodup ∧
      ∀ p ∈ sampleListA, List.Pairwise (· ≤ ·) p.2 ∧ p.2.Nodup) ∧
    merge_shopping_lists [sampleListA] = sampleListA ∧
    contentEq (merge_shopping_lists [sampleListA, sampleListA]) sampleListA :=
  ⟨⟨by decide, by decide⟩,
   (C10_merge_idem sampleListA (by decide) (by decide)).1,
   (C10_merge_idem sampleListA (by decide) (by decide)).2⟩

end RecipeProc
